import Mathlib

/-!
Verification of the task-to-calendar scheduling algorithm
(`scheduleWithRescheduling` in `convex/schema.ts`, the `/api/generate-schedule`
handler).

Shallow-embedding conventions, fixed once for the whole file:

* All datetimes are modelled as integer milliseconds since the Unix epoch
  (`Int`), exactly the values JavaScript `Date.getTime()` computes.  The
  Convex runtime executes with a UTC system timezone, so the source's
  local-time accessors (`getHours`, `getDay`, `setHours`, `setDate`) coincide
  with UTC arithmetic: `getHours t = (t % msPerDay) / msPerHour`,
  `setDate (+1)` adds `msPerDay`, and the ISO date prefix of `toISOString`
  identifies the epoch-day number `t / msPerDay` (Euclidean division, which
  is floor division for the positive divisor).
* Input records are modelled after zod validation and preference merging:
  fields with zod defaults are total, genuinely optional fields are `Option`.
  ISO strings are assumed canonical (parseable, `Z`-suffixed with the
  calendar date as prefix), so the source's `startsWith(dateStr)` day filter
  is the epoch-day test.  Working hours are the parsed `"HH:MM"` components.
* `Array.prototype.sort` is stable (ES2019); `sortWith` below is a stable
  insertion sort and therefore computes the same permutation for the
  consistent comparators the source uses.
* The source contains `while (true)` roll-forward loops that never exit when
  `workingDays` matches no weekday.  The embedding totalizes them with
  `Option`: `none` models non-termination of the JavaScript loop (on each
  loop the weekday cycles with period 7, so the JS loop exits iff one of the
  first 7 increments hits a working day).
* The only ambient-clock read inside the algorithm, `Date.now()` in the
  fallback task-id template, is modelled by the explicit `nowMs` parameter.
  The reference date `currentDate` is likewise an explicit parameter.
* Strings produced purely for presentation (the `reasoning` and `reason`
  templates) are modelled by inductives carrying exactly the data the
  template interpolates.
-/

/-- Milliseconds per minute (`60000` in the source). -/
def msPerMinute : Int := 60000

/-- Milliseconds per hour. -/
def msPerHour : Int := 3600000

/-- Milliseconds per day (`24 * 60 * 60 * 1000` in the source). -/
def msPerDay : Int := 86400000

/-- Epoch-day number of a timestamp: the `YYYY-MM-DD` prefix of
`toISOString`, as an integer day count. -/
def dayOfMs (t : Int) : Int := t / msPerDay

/-- Hour-of-day of a timestamp, i.e. `Date.prototype.getHours` under the
UTC runtime timezone. -/
def hourOfMs (t : Int) : Int := t % msPerDay / msPerHour

/-- The weekday-name table `['sunday', ..., 'saturday']` indexed by
`Date.prototype.getDay`. -/
def dayNames : List String :=
  ["sunday", "monday", "tuesday", "wednesday", "thursday", "friday", "saturday"]

/-- `getDay` for an epoch-day number: epoch day 0 (1970-01-01) was a
Thursday, index 4. -/
def weekdayIndex (d : Int) : Int := (d + 4) % 7

/-- The weekday name of an epoch-day number. -/
def weekdayName (d : Int) : String := dayNames.getD (weekdayIndex d).toNat ""

/-- The source's `defaultPreferences.workingDays.includes(dayName)` test,
for the day the timestamp lies on. -/
def isWorkingDayNum (workingDays : List String) (d : Int) : Bool :=
  workingDays.contains (weekdayName d)

/-- SchedTask priority (`'low' | 'medium' | 'high'`). -/
inductive TaskPriority where
  | low
  | medium
  | high
deriving DecidableEq, Repr

/-- The source's `priorityOrder = { high: 0, medium: 1, low: 2 }`. -/
def priorityRank : TaskPriority → Int
  | .high => 0
  | .medium => 1
  | .low => 2

/-- A calendar event as the algorithm sees it (`ExistingEventSchema`, and the
records pushed into `allEvents`).  Datetimes are epoch milliseconds. -/
structure SchedEvent where
  title : String
  startTime : Int
  endTime : Int
  description : Option String := none
  isAllDay : Option Bool := none
deriving DecidableEq, Repr

/-- Epoch-day of an event's start: the source groups events into days via
`e.startTime.startsWith(dateStr)` on canonical ISO strings. -/
def eventDayNumber (e : SchedEvent) : Int := dayOfMs e.startTime

/-- A task after zod validation (`TaskSchema`): `priority` and
`dependencies` carry zod defaults and are total, the rest keep their
optionality.  `deadline`/`startDate` are the parsed epoch milliseconds. -/
structure SchedTask where
  id : Option String := none
  title : String
  description : Option String := none
  priority : TaskPriority := .medium
  estimatedDuration : Option Int := none
  deadline : Option Int := none
  startDate : Option Int := none
  dependencies : List String := []
deriving DecidableEq, Repr

/-- Preferences after merging with `defaultPreferences`: all fields present.
Working hours are the parsed components of the `"HH:MM"` strings. -/
structure Preferences where
  whStartHour : Int
  whStartMinute : Int
  whEndHour : Int
  whEndMinute : Int
  workingDays : List String
  breakDuration : Int
  maxTasksPerDay : Int
deriving DecidableEq, Repr

/-- `new Date(dateStr + "T" + workingHours.start + ":00")` for day `d`. -/
def workStartMs (p : Preferences) (d : Int) : Int :=
  d * msPerDay + (p.whStartHour * 60 + p.whStartMinute) * msPerMinute

/-- `new Date(dateStr + "T" + workingHours.end + ":00")` for day `d`. -/
def workEndMs (p : Preferences) (d : Int) : Int :=
  d * msPerDay + (p.whEndHour * 60 + p.whEndMinute) * msPerMinute

/-- `task.estimatedDuration || 60`: JavaScript `||` also replaces a present
`0` by the default. -/
def durationMinutes (t : SchedTask) : Int :=
  match t.estimatedDuration with
  | none => 60
  | some v => if v = 0 then 60 else v

/-- The task comparator of `[...tasks].sort(...)`: deadline tasks first,
then by deadline timestamp, otherwise by priority rank.  Note that two
tasks that both carry deadlines are compared only by the deadline
difference, so equal deadlines compare as `0` regardless of priority. -/
def cmpTask (a b : SchedTask) : Int :=
  match a.deadline, b.deadline with
  | some _, none => -1
  | none, some _ => 1
  | some da, some db => da - db
  | none, none => priorityRank a.priority - priorityRank b.priority

/-- The day-event comparator `new Date(a.startTime) - new Date(b.startTime)`. -/
def cmpEventStart (a b : SchedEvent) : Int := a.startTime - b.startTime

/-- Stable insertion step: the inserted element goes before every element it
does not compare strictly greater than, matching the relative-order
guarantee of the stable `Array.prototype.sort`. -/
def insertBy {α : Type} (cmp : α → α → Int) (x : α) : List α → List α
  | [] => [x]
  | y :: ys => if cmp y x < 0 then y :: insertBy cmp x ys else x :: y :: ys

/-- Stable sort by a JavaScript-style three-way comparator. -/
def sortWith {α : Type} (cmp : α → α → Int) (l : List α) : List α :=
  l.foldr (insertBy cmp) []

/-- Least `k ∈ [1, 7]` such that `k` days after `t` is a working day — the
exit offset of the source's `while (true) { d.setDate(d.getDate() + 1); ... }`
roll-forward.  `none` means the JavaScript loop never exits (weekdays cycle
with period 7). -/
def firstWorkingOffset (workingDays : List String) (t : Int) : Option Nat :=
  ((List.range 7).map (· + 1)).find?
    (fun k => isWorkingDayNum workingDays (dayOfMs t + (k : Int)))

/-- Roll the scheduling start forward to the next working day, landing at
`setHours(startHour, 0, 0, 0)` of that day (source lines 289-302). -/
def advanceStartToWorkingDay (p : Preferences) (t : Int) : Option Int :=
  if isWorkingDayNum p.workingDays (dayOfMs t) then some t
  else
    match firstWorkingOffset p.workingDays t with
    | some k => some ((dayOfMs t + (k : Int)) * msPerDay + p.whStartHour * msPerHour)
    | none => none

/-- Roll a deadline that falls on a non-working day forward to the next
working day, keeping its time-of-day (source lines 307-323). -/
def extendDeadlineToWorkingDay (workingDays : List String) (dl : Int) : Option Int :=
  if isWorkingDayNum workingDays (dayOfMs dl) then some dl
  else
    match firstWorkingOffset workingDays dl with
    | some k => some (dl + (k : Int) * msPerDay)
    | none => none

/-- Per-task scheduling window (source lines 266-328): resolved earliest
start (`schedulingStartDate` after the after-hours and working-day
adjustments) and window end (`schedulingEndDate`: the deadline extended to a
working day, or start + 30 days, snapped to `setHours(endHour, 0, 0, 0)`). -/
def taskWindow (p : Preferences) (currentDate : Int) (t : SchedTask) : Option (Int × Int) :=
  let taskStartDate := t.startDate.getD currentDate
  let ssd0 := max taskStartDate currentDate
  let ssd1 :=
    if p.whEndHour ≤ hourOfMs ssd0 then
      (dayOfMs ssd0 + 1) * msPerDay + p.whStartHour * msPerHour
    else ssd0
  match advanceStartToWorkingDay p ssd1 with
  | none => none
  | some ssd2 =>
    let hi0 : Option Int :=
      match t.deadline with
      | some dl => extendDeadlineToWorkingDay p.workingDays dl
      | none => some (ssd2 + 30 * msPerDay)
    match hi0 with
    | none => none
    | some hi1 => some (ssd2, dayOfMs hi1 * msPerDay + p.whEndHour * msPerHour)

/-- Structured content of the `reasoning` strings attached to a placement:
start-of-day, gap-before-event (with the `Math.floor(availableTime)` minute
count and the blocking event's title), or after-last-event. -/
inductive SlotReason where
  | startOfDay (day : Int)
  | gapBeforeEvent (availableMinutes : Int) (eventTitle : String) (day : Int)
  | afterLastEvent (day : Int)
deriving DecidableEq, Repr

/-- A successful placement: the new interval plus its reasoning. -/
structure Placement where
  startTime : Int
  endTime : Int
  reason : SlotReason
deriving DecidableEq, Repr

/-- The gap-walking loop over the sorted day events (source lines 403-447):
the candidate slot before each event is `[cursor, event.start - buffer)`;
on failure the cursor advances to `event.end + buffer`. -/
def findSlot (d dur buf : Int) (cursor : Int) : List SchedEvent → Option Placement
  | [] => none
  | e :: rest =>
    if dur * msPerMinute ≤ e.startTime - buf - cursor then
      some ⟨cursor, cursor + dur * msPerMinute,
        .gapBeforeEvent ((e.startTime - buf - cursor) / msPerMinute) e.title d⟩
    else findSlot d dur buf (e.endTime + buf) rest

/-- Last element of a head-and-tail list (`sortedDayEvents[length - 1]`). -/
def lastEvent (e : SchedEvent) : List SchedEvent → SchedEvent
  | [] => e
  | f :: rest => lastEvent f rest

/-- The events of day `d` (`allEvents.filter(e => e.startTime.startsWith(dateStr))`)
sorted by start time. -/
def dayEventsSorted (events : List SchedEvent) (d : Int) : List SchedEvent :=
  sortWith cmpEventStart (events.filter (fun e => decide (eventDayNumber e = d)))

/-- One iteration of the day loop (source lines 335-493): skip non-working
days; on a day with no events try start-of-day (CASE 1); otherwise walk the
gaps (CASE 2) and finally the slot after the last event (CASE 3). -/
def tryDay (p : Preferences) (dur buf : Int) (events : List SchedEvent) (d : Int) :
    Option Placement :=
  if isWorkingDayNum p.workingDays d then
    let workStart := workStartMs p d
    let workEnd := workEndMs p d
    match dayEventsSorted events d with
    | [] =>
      if workStart + dur * msPerMinute ≤ workEnd then
        some ⟨workStart, workStart + dur * msPerMinute, .startOfDay d⟩
      else none
    | e :: rest =>
      match findSlot d dur buf workStart (e :: rest) with
      | some pl => some pl
      | none =>
        let afterLast := (lastEvent e rest).endTime + buf
        if dur * msPerMinute ≤ workEnd - afterLast then
          some ⟨afterLast, afterLast + dur * msPerMinute, .afterLastEvent d⟩
        else none
  else none

/-- Number of iterations of `for (let d = lo; d <= hi; d.setDate(+1))`. -/
def numDaysToScan (lo hi : Int) : Nat :=
  if lo ≤ hi then (hi - lo).toNat / 86400000 + 1 else 0

/-- The epoch-day numbers the day loop visits: `d` starts at the resolved
window start (with its time-of-day) and advances by whole days while
`d <= hi`, and `dateStr` is the day of `d`. -/
def daysToScan (lo hi : Int) : List Int :=
  (List.range (numDaysToScan lo hi)).map (fun (k : Nat) => dayOfMs lo + (k : Int))

/-- First successful placement over the scanned days. -/
def scanDays (p : Preferences) (dur buf : Int) (events : List SchedEvent) :
    List Int → Option Placement
  | [] => none
  | d :: ds =>
    match tryDay p dur buf events d with
    | some pl => some pl
    | none => scanDays p dur buf events ds

/-- A `schedule` entry (`ScheduledTaskSchema`). -/
structure ScheduledTask where
  taskId : String
  title : String
  description : Option String
  startTime : Int
  endTime : Int
  priority : TaskPriority
  reasoning : SlotReason
deriving DecidableEq, Repr

/-- Structured content of the two unscheduled-reason templates: no slot
before the effective deadline (whose ISO date the template interpolates), or
no slot in the default 30-day window. -/
inductive FailReason where
  | beforeDeadline (durationMin : Int) (deadlineDay : Int)
  | noSlotInThirtyDayWindow (durationMin : Int)
deriving DecidableEq, Repr

/-- An `unscheduledTasks` entry. -/
structure UnscheduledTask where
  taskId : String
  title : String
  reason : FailReason
deriving DecidableEq, Repr

/-- The record pushed into `allEvents` when a task is placed
(source lines 386-391): title, interval and description only. -/
def toBlockedEvent (s : ScheduledTask) : SchedEvent :=
  { title := s.title, startTime := s.startTime, endTime := s.endTime,
    description := s.description, isAllDay := none }

/-- `task.id || "task-" + Date.now() + "-" + taskIndex`: an empty-string id
is falsy and also falls back to the clock-derived id. -/
def resolveTaskId (nowMs : Int) (idx : Nat) (t : SchedTask) : String :=
  match t.id with
  | some s => if s = "" then "task-" ++ toString nowMs ++ "-" ++ toString idx else s
  | none => "task-" ++ toString nowMs ++ "-" ++ toString idx

/-- The mutable state of the scheduling loop: the working event copy
(`allEvents`, initialized to a copy of `existingEvents`), and the
accumulated `scheduledTasks` / `unscheduledTasks`. -/
structure SchedState where
  allEvents : List SchedEvent
  scheduled : List ScheduledTask
  unscheduled : List UnscheduledTask
deriving DecidableEq, Repr

/-- The `schedule` entry pushed on a successful placement
(source lines 375-383, 422-430, 463-471). -/
def mkScheduledEntry (nowMs : Int) (idx : Nat) (t : SchedTask) (pl : Placement) :
    ScheduledTask :=
  { taskId := resolveTaskId nowMs idx t, title := t.title,
    description := t.description, startTime := pl.startTime,
    endTime := pl.endTime, priority := t.priority, reasoning := pl.reason }

/-- The `unscheduledTasks` entry pushed when no day fits
(source lines 495-507): the reason cites the effective deadline date when the
task has a deadline, and the default 30-day window otherwise. -/
def mkUnscheduledEntry (nowMs : Int) (idx : Nat) (t : SchedTask) (hi : Int) :
    UnscheduledTask :=
  { taskId := resolveTaskId nowMs idx t, title := t.title,
    reason :=
      match t.deadline with
      | some _ => FailReason.beforeDeadline (durationMinutes t) (dayOfMs hi)
      | none => FailReason.noSlotInThirtyDayWindow (durationMinutes t) }

/-- Process one task (source lines 261-508): compute its window, scan the
days for a first-fit placement; on success append the entry and block its
interval in `allEvents`, otherwise record the unscheduled reason.  `none`
propagates the non-termination of the roll-forward loops. -/
def scheduleOneTask (p : Preferences) (nowMs currentDate : Int) (st : SchedState)
    (idx : Nat) (t : SchedTask) : Option SchedState :=
  match taskWindow p currentDate t with
  | none => none
  | some (lo, hi) =>
    match scanDays p (durationMinutes t) (p.breakDuration * msPerMinute) st.allEvents
        (daysToScan lo hi) with
    | some pl =>
      some { st with
        allEvents := st.allEvents ++ [toBlockedEvent (mkScheduledEntry nowMs idx t pl)],
        scheduled := st.scheduled ++ [mkScheduledEntry nowMs idx t pl] }
    | none =>
      some { st with
        unscheduled := st.unscheduled ++ [mkUnscheduledEntry nowMs idx t hi] }

/-- The outer task loop, threading the state and the task index. -/
def runTasks (p : Preferences) (nowMs currentDate : Int) :
    SchedState → Nat → List SchedTask → Option SchedState
  | st, _, [] => some st
  | st, idx, t :: ts =>
    match scheduleOneTask p nowMs currentDate st idx t with
    | none => none
    | some st2 => runTasks p nowMs currentDate st2 (idx + 1) ts

/-- The whole `scheduleWithRescheduling` loop: copy `existingEvents`, sort
the tasks with the deadline/priority comparator, process them in order. -/
def runScheduler (p : Preferences) (nowMs currentDate : Int) (tasks : List SchedTask)
    (existingEvents : List SchedEvent) : Option SchedState :=
  runTasks p nowMs currentDate ⟨existingEvents, [], []⟩ 0 (sortWith cmpTask tasks)

/-- Update the `workloadDistribution` record: JavaScript object keys keep
first-insertion order, counts bump in place. -/
def bumpDistribution : List (Int × Nat) → Int → List (Int × Nat)
  | [], d => [(d, 1)]
  | (k, c) :: rest, d =>
    if k = d then (k, c + 1) :: rest else (k, c) :: bumpDistribution rest d

/-- The summary fold (source lines 515-524): per-start-date counts and the
maximum start date among scheduled tasks. -/
def summaryFold (scheduled : List ScheduledTask) : List (Int × Nat) × Option Int :=
  scheduled.foldl
    (fun acc s =>
      let d := dayOfMs s.startTime
      (bumpDistribution acc.1 d,
        match acc.2 with
        | none => some d
        | some l => if l < d then some d else some l))
    ([], none)

/-- The `recommendations` strings (source lines 529-536). -/
def buildRecommendations (scheduledCount unscheduledCount : Nat) : List String :=
  (if 0 < unscheduledCount then
    ["Consider extending working hours or adjusting deadlines for unscheduled tasks",
     "Review task durations - some may be overestimated"]
   else []) ++
  (if 0 < scheduledCount then
    ["Schedule looks good! Check the calendar for your new tasks"]
   else [])

/-- The response shape (`ScheduleResponseSchema`): `movedTasks` is omitted
because the schema.ts scheduler never populates it (`movedTasks.length > 0`
is always false, so the field is always `undefined`). -/
structure ScheduleResult where
  schedule : List ScheduledTask
  totalTasks : Nat
  scheduledTasksCount : Nat
  unscheduledTasks : List UnscheduledTask
  estimatedCompletionDate : Option Int
  workloadDistribution : List (Int × Nat)
  recommendations : List String
deriving DecidableEq, Repr

/-- The full `scheduleWithRescheduling` result (source lines 538-549). -/
def generateSchedule (p : Preferences) (nowMs currentDate : Int) (tasks : List SchedTask)
    (existingEvents : List SchedEvent) : Option ScheduleResult :=
  (runScheduler p nowMs currentDate tasks existingEvents).map fun st =>
    let summary := summaryFold st.scheduled
    { schedule := st.scheduled, totalTasks := tasks.length,
      scheduledTasksCount := st.scheduled.length,
      unscheduledTasks := st.unscheduled,
      estimatedCompletionDate := summary.2,
      workloadDistribution := summary.1,
      recommendations := buildRecommendations st.scheduled.length st.unscheduled.length }

/-- Two intervals do not overlap (one ends before the other starts). -/
def eventsDisjoint (a b : SchedEvent) : Prop :=
  a.endTime ≤ b.startTime ∨ b.endTime ≤ a.startTime

/-- Two events that lie on the same calendar (start) day do not overlap. -/
def sameDayDisjoint (a b : SchedEvent) : Prop :=
  eventDayNumber a = eventDayNumber b → eventsDisjoint a b

/-- The working-hours strings are parseable `"HH:MM"` components.  The zod
schema ships `"09:00"`/`"17:00"` defaults but does not validate the strings;
an unparseable string poisons the date arithmetic with `NaN`, which is
outside this integer model, so the hour/minute ranges appear as explicit
hypotheses. -/
def validHours (p : Preferences) : Prop :=
  0 ≤ p.whStartHour ∧ p.whStartHour ≤ 23 ∧ 0 ≤ p.whStartMinute ∧ p.whStartMinute ≤ 59 ∧
    0 ≤ p.whEndHour ∧ p.whEndHour ≤ 23 ∧ 0 ≤ p.whEndMinute ∧ p.whEndMinute ≤ 59

/-- An event lies inside the working window of its own start day. -/
def withinWorkingHours (p : Preferences) (e : SchedEvent) : Prop :=
  workStartMs p (eventDayNumber e) ≤ e.startTime ∧
    e.endTime ≤ workEndMs p (eventDayNumber e)

/-- The task id is JavaScript-truthy, so `task.id || fallback` never
consults the `Date.now()` fallback. -/
def hasUsableId (t : SchedTask) : Prop := t.id.getD "" ≠ ""

/-- Erase the `dependencies` field, which the placement algorithm never
reads. -/
def stripSchedTask (t : SchedTask) : SchedTask := { t with dependencies := [] }

/-- Erase the `maxTasksPerDay` field, which the placement algorithm never
reads. -/
def stripPreferences (p : Preferences) : Preferences := { p with maxTasksPerDay := 0 }

/-- Attach strictly increasing indices starting at `n`, for stating
stability of the task sort. -/
def indexFrom {α : Type} (n : Nat) : List α → List (Nat × α)
  | [] => []
  | a :: l => (n, a) :: indexFrom (n + 1) l

/-- The task comparator lifted to index-tagged tasks (the index is ignored,
exactly as positions are invisible to the JavaScript comparator). -/
def cmpTaskIdx (a b : Nat × SchedTask) : Int := cmpTask a.2 b.2

/-- The zod default working days, `['monday', ..., 'friday']`. -/
def weekdaysMonFri : List String :=
  ["monday", "tuesday", "wednesday", "thursday", "friday"]

/-- The default preferences: 09:00-17:00, Monday-Friday, 15-minute buffer,
8 tasks per day. -/
def prefsDefault : Preferences := ⟨9, 0, 17, 0, weekdaysMonFri, 15, 8⟩

/-- Default hours and buffer with every weekday a working day. -/
def prefsAllDays : Preferences := ⟨9, 0, 17, 0, dayNames, 15, 8⟩

/-- Default hours and buffer with an empty `workingDays` list. -/
def prefsNoDays : Preferences := ⟨9, 0, 17, 0, [], 15, 8⟩

/-- 1970-01-05T00:00:00.000Z, a Monday (epoch day 4). -/
def mondayRef : Int := 4 * msPerDay

/-- A degenerate existing event whose `endTime` (Monday 09:00) precedes its
`startTime` (Monday 10:00). -/
def cexReversedEvent : SchedEvent :=
  { title := "rev", startTime := mondayRef + 10 * msPerHour,
    endTime := mondayRef + 9 * msPerHour }

/-- A 30-minute task. -/
def cexHalfHourTaskA : SchedTask :=
  { id := some "t1", title := "t1", estimatedDuration := some 30 }

/-- A second 30-minute task. -/
def cexHalfHourTaskB : SchedTask :=
  { id := some "t2", title := "t2", estimatedDuration := some 30 }

/-- The scheduler state reached from the reversed-event input. -/
def cexOverlapState : SchedState :=
  (runScheduler prefsAllDays 0 mondayRef [cexHalfHourTaskA, cexHalfHourTaskB]
      [cexReversedEvent]).getD ⟨[], [], []⟩

/-- Monday 11:00, a reference time inside working hours. -/
def cexMidMorning : Int := mondayRef + 11 * msPerHour

/-- A task with only an id and title (duration defaults to 60). -/
def wTaskPlain : SchedTask := { id := some "w", title := "w" }

/-- The scheduler state reached from the mid-morning reference input. -/
def cexPastState : SchedState :=
  (runScheduler prefsDefault 0 cexMidMorning [wTaskPlain] []).getD ⟨[], [], []⟩

/-- An existing event after working hours, Monday 20:00-21:00. -/
def cexLateEvent : SchedEvent :=
  { title := "late", startTime := mondayRef + 20 * msPerHour,
    endTime := mondayRef + 21 * msPerHour }

/-- A 600-minute (10-hour) task. -/
def cexLongTask : SchedTask :=
  { id := some "l", title := "l", estimatedDuration := some 600 }

/-- The scheduler state reached from the late-event input. -/
def cexOvershootState : SchedState :=
  (runScheduler prefsDefault 0 mondayRef [cexLongTask] [cexLateEvent]).getD ⟨[], [], []⟩

/-- A low-priority task with a Monday deadline. -/
def cexDeadlineLow : SchedTask :=
  { id := some "L", title := "L", priority := .low, deadline := some mondayRef }

/-- A high-priority task with the same Monday deadline. -/
def cexDeadlineHigh : SchedTask :=
  { id := some "H", title := "H", priority := .high, deadline := some mondayRef }

/-- A task without an id: its output ids come from the `Date.now()`
fallback. -/
def cexAnonTask : SchedTask := { title := "anon" }

/-- A well-formed existing event inside working hours, Monday 10:00-11:00. -/
def wEvent : SchedEvent :=
  { title := "m", startTime := mondayRef + 10 * msPerHour,
    endTime := mondayRef + 11 * msPerHour }

/-- A placeable 30-minute task with a Monday deadline. -/
def wTask : SchedTask :=
  { id := some "w", title := "w", estimatedDuration := some 30,
    deadline := some mondayRef }

/-- The scheduler state for the witness input. -/
def wState : SchedState :=
  (runScheduler prefsDefault 0 mondayRef [wTask] [wEvent]).getD ⟨[], [], []⟩

/-- A 600-minute task due the same Monday: unplaceable. -/
def wTaskBig : SchedTask :=
  { id := some "b", title := "b", estimatedDuration := some 600,
    deadline := some mondayRef }

/-- The scheduler state for the unplaceable-task witness input. -/
def wFailState : SchedState :=
  (runScheduler prefsDefault 0 mondayRef [wTaskBig] []).getD ⟨[], [], []⟩

/-- A placeholder schedule entry (only used as a `getD` default). -/
def defaultScheduledTask : ScheduledTask :=
  { taskId := "", title := "", description := none, startTime := 0, endTime := 0,
    priority := .medium, reasoning := .startOfDay 0 }

/-- The first (and only) entry the witness input schedules. -/
def wEntry : ScheduledTask := wState.scheduled.getD 0 defaultScheduledTask

/-- Default preferences with `maxTasksPerDay` lowered to 3. -/
def prefsMaxThree : Preferences := ⟨9, 0, 17, 0, weekdaysMonFri, 15, 3⟩

/-- The witness task with a nonempty `dependencies` list. -/
def wTaskDeps : SchedTask := { wTask with dependencies := ["other-task"] }

/-- The claimed same-day relation: same-start-day intervals either do not
overlap or are separated by at least `breakMin` minutes. -/
def claimGapOk (breakMin : Int) (a b : SchedEvent) : Prop :=
  eventDayNumber a = eventDayNumber b →
    (eventsDisjoint a b ∨
      breakMin * msPerMinute ≤ max a.startTime b.startTime - min a.endTime b.endTime)

instance (a b : SchedEvent) : Decidable (eventsDisjoint a b) := by
  unfold eventsDisjoint; infer_instance

instance (a b : SchedEvent) : Decidable (sameDayDisjoint a b) := by
  unfold sameDayDisjoint; infer_instance

instance (m : Int) (a b : SchedEvent) : Decidable (claimGapOk m a b) := by
  unfold claimGapOk; infer_instance

instance (p : Preferences) : Decidable (validHours p) := by
  unfold validHours; infer_instance

instance (p : Preferences) (e : SchedEvent) : Decidable (withinWorkingHours p e) := by
  unfold withinWorkingHours; infer_instance

instance (t : SchedTask) : Decidable (hasUsableId t) := by
  unfold hasUsableId; infer_instance

/-- Inserting into a list permutes consing onto it. -/
theorem insertBy_perm {α : Type} (cmp : α → α → Int) (x : α) (l : List α) :
    (insertBy cmp x l).Perm (x :: l) := by
  induction l with
  | nil => simp [insertBy]
  | cons y ys ih =>
    by_cases h : cmp y x < 0
    · simp only [insertBy, if_pos h]
      exact (ih.cons y).trans (List.Perm.swap x y ys)
    · simp only [insertBy, if_neg h]
      exact List.Perm.refl _

/-- The stable sort permutes its input. -/
theorem sortWith_perm {α : Type} (cmp : α → α → Int) (l : List α) :
    (sortWith cmp l).Perm l := by
  induction l with
  | nil => simp [sortWith]
  | cons a l ih =>
    exact (insertBy_perm cmp a (sortWith cmp l)).trans (ih.cons a)

/-- Membership is preserved by the stable sort. -/
theorem mem_sortWith {α : Type} (cmp : α → α → Int) (l : List α) (x : α) :
    x ∈ sortWith cmp l ↔ x ∈ l :=
  (sortWith_perm cmp l).mem_iff

/-- Inserting preserves sortedness for a sign-antisymmetric, transitive
comparator. -/
theorem pairwise_insertBy {α : Type} (cmp : α → α → Int)
    (hanti : ∀ a b, cmp a b = - cmp b a)
    (htrans : ∀ a b c, cmp a b ≤ 0 → cmp b c ≤ 0 → cmp a c ≤ 0)
    (x : α) (l : List α) (hl : l.Pairwise (fun a b => cmp a b ≤ 0)) :
    (insertBy cmp x l).Pairwise (fun a b => cmp a b ≤ 0) := by
  induction l with
  | nil => simp [insertBy]
  | cons y ys ih =>
    rcases List.pairwise_cons.mp hl with ⟨hy, hys⟩
    by_cases h : cmp y x < 0
    · simp only [insertBy, if_pos h]
      refine List.pairwise_cons.mpr ⟨?_, ih hys⟩
      intro b hb
      rcases List.mem_cons.mp ((insertBy_perm cmp x ys).mem_iff.mp hb) with rfl | hb
      · omega
      · exact hy b hb
    · simp only [insertBy, if_neg h]
      refine List.pairwise_cons.mpr ⟨?_, hl⟩
      intro b hb
      rcases List.mem_cons.mp hb with rfl | hb
      · have := hanti x b; omega
      · exact htrans x y b (by have := hanti x y; omega) (hy b hb)

/-- The stable sort is sorted for a sign-antisymmetric, transitive
comparator. -/
theorem sortWith_pairwise {α : Type} (cmp : α → α → Int)
    (hanti : ∀ a b, cmp a b = - cmp b a)
    (htrans : ∀ a b c, cmp a b ≤ 0 → cmp b c ≤ 0 → cmp a c ≤ 0)
    (l : List α) : (sortWith cmp l).Pairwise (fun a b => cmp a b ≤ 0) := by
  induction l with
  | nil => simp [sortWith]
  | cons a l ih => exact pairwise_insertBy cmp hanti htrans a (sortWith cmp l) ih

/-- The task comparator is sign-antisymmetric. -/
theorem cmpTask_anti (a b : SchedTask) : cmpTask a b = - cmpTask b a := by
  rcases ha : a.deadline with _ | da <;> rcases hb : b.deadline with _ | db <;>
    simp only [cmpTask, ha, hb] <;> omega

/-- The task comparator is transitive on its nonpositive cone. -/
theorem cmpTask_trans (a b c : SchedTask) (h1 : cmpTask a b ≤ 0) (h2 : cmpTask b c ≤ 0) :
    cmpTask a c ≤ 0 := by
  rcases ha : a.deadline with _ | da <;> rcases hb : b.deadline with _ | db <;>
    rcases hc : c.deadline with _ | dc <;>
    simp_all [cmpTask, ha, hb, hc] <;> omega

/-- The day-event comparator is sign-antisymmetric. -/
theorem cmpEventStart_anti (a b : SchedEvent) : cmpEventStart a b = - cmpEventStart b a := by
  unfold cmpEventStart; omega

/-- The day-event comparator is transitive on its nonpositive cone. -/
theorem cmpEventStart_trans (a b c : SchedEvent) (h1 : cmpEventStart a b ≤ 0)
    (h2 : cmpEventStart b c ≤ 0) : cmpEventStart a c ≤ 0 := by
  unfold cmpEventStart at *; omega

/-- Indices attached by `indexFrom n` are at least `n`. -/
theorem mem_indexFrom {α : Type} (n : Nat) (l : List α) (z : Nat × α)
    (h : z ∈ indexFrom n l) : n ≤ z.1 := by
  induction l generalizing n with
  | nil => simp [indexFrom] at h
  | cons a l ih =>
    rcases List.mem_cons.mp h with rfl | h
    · exact Nat.le_refl n
    · exact Nat.le_trans (Nat.le_succ n) (ih (n + 1) h)

/-- `indexFrom` attaches strictly increasing indices. -/
theorem indexFrom_increasing {α : Type} (n : Nat) (l : List α) :
    (indexFrom n l).Pairwise (fun a b => a.1 < b.1) := by
  induction l generalizing n with
  | nil => simp [indexFrom]
  | cons a l ih =>
    refine List.pairwise_cons.mpr ⟨?_, ih (n + 1)⟩
    intro b hb
    exact Nat.lt_of_lt_of_le (Nat.lt_succ_self n) (mem_indexFrom (n + 1) l b hb)

/-- Dropping the indices from `indexFrom` recovers the list. -/
theorem map_snd_indexFrom {α : Type} (n : Nat) (l : List α) :
    (indexFrom n l).map Prod.snd = l := by
  induction l generalizing n with
  | nil => rfl
  | cons a l ih => simp [indexFrom, ih]

/-- Stability of the insertion step: inserting an element whose index is
below every index in the (already stability-sound) list keeps equal-keyed
elements in index order. -/
theorem stable_insertBy (x : Nat × SchedTask) (l : List (Nat × SchedTask))
    (hx : ∀ z ∈ l, x.1 < z.1)
    (hl : l.Pairwise fun a b => cmpTaskIdx a b = 0 → a.1 < b.1) :
    (insertBy cmpTaskIdx x l).Pairwise fun a b => cmpTaskIdx a b = 0 → a.1 < b.1 := by
  induction l with
  | nil => simp [insertBy]
  | cons y ys ih =>
    rcases List.pairwise_cons.mp hl with ⟨hy, hys⟩
    by_cases h : cmpTaskIdx y x < 0
    · simp only [insertBy, if_pos h]
      refine List.pairwise_cons.mpr
        ⟨?_, ih (fun z hz => hx z (List.mem_cons_of_mem y hz)) hys⟩
      intro b hb
      rcases List.mem_cons.mp ((insertBy_perm cmpTaskIdx x ys).mem_iff.mp hb) with rfl | hb
      · intro h0; omega
      · exact hy b hb
    · simp only [insertBy, if_neg h]
      refine List.pairwise_cons.mpr ⟨?_, hl⟩
      intro b hb _
      exact hx b hb

/-- Stability of the whole sort on an index-tagged list with strictly
increasing indices. -/
theorem stable_sortWith_indexed (l : List (Nat × SchedTask))
    (hl : l.Pairwise fun a b => a.1 < b.1) :
    (sortWith cmpTaskIdx l).Pairwise fun a b => cmpTaskIdx a b = 0 → a.1 < b.1 := by
  induction l with
  | nil => simp [sortWith]
  | cons a l ih =>
    rcases List.pairwise_cons.mp hl with ⟨ha, hl2⟩
    exact stable_insertBy a (sortWith cmpTaskIdx l)
      (fun z hz => ha z ((mem_sortWith cmpTaskIdx l z).mp hz)) (ih hl2)

/-- Inserting commutes with dropping indices. -/
theorem map_snd_insertBy (x : Nat × SchedTask) (l : List (Nat × SchedTask)) :
    (insertBy cmpTaskIdx x l).map Prod.snd = insertBy cmpTask x.2 (l.map Prod.snd) := by
  induction l with
  | nil => rfl
  | cons y ys ih =>
    simp only [insertBy, List.map_cons]
    by_cases h : cmpTask y.2 x.2 < 0
    · rw [if_pos (show cmpTaskIdx y x < 0 from h)]
      simp [h, ih]
    · rw [if_neg (show ¬ cmpTaskIdx y x < 0 from h)]
      simp [h]

/-- The indexed sort projects to the plain task sort. -/
theorem sortWith_indexed_snd (l : List SchedTask) (n : Nat) :
    (sortWith cmpTaskIdx (indexFrom n l)).map Prod.snd = sortWith cmpTask l := by
  induction l generalizing n with
  | nil => rfl
  | cons a l ih =>
    show (insertBy cmpTaskIdx (n, a) (sortWith cmpTaskIdx (indexFrom (n + 1) l))).map
        Prod.snd = insertBy cmpTask a (sortWith cmpTask l)
    rw [map_snd_insertBy, ih (n + 1)]

/-- The day number times the day length is at most the timestamp. -/
theorem dayOfMs_lower (t : Int) : dayOfMs t * msPerDay ≤ t := by
  simp only [dayOfMs, msPerDay]; omega

/-- The timestamp is below the next midnight of its day. -/
theorem dayOfMs_upper (t : Int) : t < (dayOfMs t + 1) * msPerDay := by
  simp only [dayOfMs, msPerDay]; omega

/-- Characterization of the day number by its midnight bounds. -/
theorem dayOfMs_eq_of_bounds {d t : Int} (h1 : d * msPerDay ≤ t)
    (h2 : t < (d + 1) * msPerDay) : dayOfMs t = d := by
  simp only [dayOfMs, msPerDay] at *; omega

/-- The day number is monotone. -/
theorem dayOfMs_mono {a b : Int} (h : a ≤ b) : dayOfMs a ≤ dayOfMs b := by
  simp only [dayOfMs, msPerDay]; omega

/-- Membership in the sorted day-event list. -/
theorem mem_dayEventsSorted (evts : List SchedEvent) (d : Int) (e : SchedEvent) :
    e ∈ dayEventsSorted evts d ↔ e ∈ evts ∧ eventDayNumber e = d := by
  unfold dayEventsSorted
  rw [mem_sortWith, List.mem_filter]
  simp

/-- The day-event list is sorted by start time. -/
theorem dayEventsSorted_sorted (evts : List SchedEvent) (d : Int) :
    (dayEventsSorted evts d).Pairwise (fun a b => a.startTime ≤ b.startTime) := by
  refine (sortWith_pairwise cmpEventStart cmpEventStart_anti cmpEventStart_trans _).imp ?_
  intro a b h
  unfold cmpEventStart at h
  omega

/-- Same-day disjointness is a symmetric relation. -/
theorem sameDayDisjoint_symm {a b : SchedEvent} (h : sameDayDisjoint a b) :
    sameDayDisjoint b a := by
  intro heq
  rcases h heq.symm with h1 | h1
  · exact Or.inr h1
  · exact Or.inl h1

/-- For well-formed, pairwise same-day-disjoint events, the sorted day-event
list is an end-before-start chain. -/
theorem dayEventsSorted_chain (evts : List SchedEvent) (d : Int)
    (hwf : ∀ e ∈ evts, e.startTime < e.endTime)
    (hdisj : evts.Pairwise sameDayDisjoint) :
    (dayEventsSorted evts d).Pairwise (fun a b => a.endTime ≤ b.startTime) := by
  have hfilter : (evts.filter (fun e => decide (eventDayNumber e = d))).Pairwise
      sameDayDisjoint := hdisj.filter _
  have hd : (dayEventsSorted evts d).Pairwise sameDayDisjoint :=
    (List.Perm.pairwise_iff (fun hab => sameDayDisjoint_symm hab)
      (sortWith_perm cmpEventStart _)).mpr hfilter
  have hs := dayEventsSorted_sorted evts d
  refine List.Pairwise.imp_of_mem (fun ha hb hr => ?_) (hs.and hd)
  rename_i a b
  have hda := (mem_dayEventsSorted evts d a).mp ha
  have hdb := (mem_dayEventsSorted evts d b).mp hb
  have hdisj2 := hr.2 (hda.2.trans hdb.2.symm)
  have hwfb := hwf b hdb.1
  rcases hdisj2 with h1 | h1
  · exact h1
  · have := hr.1; omega

/-- The last element of a head-and-tail list is a member of it. -/
theorem lastEvent_mem (e : SchedEvent) (l : List SchedEvent) : lastEvent e l ∈ e :: l := by
  induction l generalizing e with
  | nil => simp [lastEvent]
  | cons f rest ih =>
    simp only [lastEvent]
    exact List.mem_cons_of_mem e (ih f)

/-- In an end-before-start chain of well-formed events, the last event has
the largest end time. -/
theorem lastEvent_end_ge (e : SchedEvent) (l : List SchedEvent)
    (hchain : (e :: l).Pairwise fun a b => a.endTime ≤ b.startTime)
    (hwf : ∀ x ∈ e :: l, x.startTime < x.endTime) :
    ∀ f ∈ e :: l, f.endTime ≤ (lastEvent e l).endTime := by
  induction l generalizing e with
  | nil =>
    intro f hf
    rcases List.mem_cons.mp hf with rfl | h
    · simp [lastEvent]
    · simp at h
  | cons g rest ih =>
    intro f hf
    rcases List.pairwise_cons.mp hchain with ⟨he, hrest⟩
    simp only [lastEvent]
    rcases List.mem_cons.mp hf with rfl | hf2
    · have h1 := he g (by simp)
      have h2 := hwf g (by simp)
      have h3 := ih g hrest (fun x hx => hwf x (List.mem_cons_of_mem _ hx)) g (by simp)
      omega
    · exact ih g hrest (fun x hx => hwf x (List.mem_cons_of_mem _ hx)) f hf2

/-- Soundness of the gap-walking loop: a found slot has the exact requested
length, starts at the initial cursor or at buffer distance after some event,
ends at least a buffer before some event, and (for a well-formed
end-before-start chain) keeps a buffer gap to every event of the list. -/
theorem findSlot_sound (d dur buf : Int) (l : List SchedEvent) :
    ∀ (cursor s en : Int) (r : SlotReason),
      findSlot d dur buf cursor l = some ⟨s, en, r⟩ →
      en = s + dur * msPerMinute ∧
      (s = cursor ∨ ∃ x ∈ l, s = x.endTime + buf) ∧
      (∃ x ∈ l, en + buf ≤ x.startTime) ∧
      ((l.Pairwise fun a b => a.endTime ≤ b.startTime) →
        (∀ x ∈ l, x.startTime < x.endTime) →
        ∀ f ∈ l, f.endTime + buf ≤ s ∨ en + buf ≤ f.startTime) := by
  induction l with
  | nil =>
    intro cursor s en r h
    simp [findSlot] at h
  | cons e rest ih =>
    intro cursor s en r h
    simp only [findSlot] at h
    by_cases hc : dur * msPerMinute ≤ e.startTime - buf - cursor
    · rw [if_pos hc] at h
      obtain ⟨h1, h2, h3⟩ := Placement.mk.injEq .. ▸ (Option.some.injEq .. ▸ h)
      subst h1; subst h2
      refine ⟨rfl, Or.inl rfl, ⟨e, by simp, by omega⟩, ?_⟩
      intro hchain hwf f hf
      rcases List.mem_cons.mp hf with rfl | hf2
      · exact Or.inr (by omega)
      · have hef := (List.pairwise_cons.mp hchain).1 f hf2
        have hwfe := hwf e (by simp)
        exact Or.inr (by omega)
    · rw [if_neg hc] at h
      obtain ⟨ih1, ih2, ih3, ih4⟩ := ih (e.endTime + buf) s en r h
      refine ⟨ih1, ?_, ?_, ?_⟩
      · rcases ih2 with h2 | ⟨x, hx, h2⟩
        · exact Or.inr ⟨e, by simp, h2⟩
        · exact Or.inr ⟨x, List.mem_cons_of_mem e hx, h2⟩
      · obtain ⟨x, hx, h3⟩ := ih3
        exact ⟨x, List.mem_cons_of_mem e hx, h3⟩
      · intro hchain hwf f hf
        obtain ⟨hhead, htail⟩ := List.pairwise_cons.mp hchain
        rcases List.mem_cons.mp hf with rfl | hf2
        · refine Or.inl ?_
          rcases ih2 with h2 | ⟨x, hx, h2⟩
          · omega
          · have hfx := hhead x hx
            have hwfx := hwf x (List.mem_cons_of_mem f hx)
            omega
        · exact ih4 htail (fun x hx => hwf x (List.mem_cons_of_mem e hx)) f hf2

/-- Basic soundness of one day attempt: exact slot length, and the slot's
position relative to the working window and the day's events. -/
theorem tryDay_sound (p : Preferences) (dur buf : Int) (evts : List SchedEvent)
    (d : Int) (pl : Placement) (h : tryDay p dur buf evts d = some pl) :
    pl.endTime = pl.startTime + dur * msPerMinute ∧
    (pl.startTime = workStartMs p d ∨
      ∃ x ∈ evts, eventDayNumber x = d ∧ pl.startTime = x.endTime + buf) ∧
    (pl.endTime ≤ workEndMs p d ∨
      ∃ x ∈ evts, eventDayNumber x = d ∧ pl.endTime + buf ≤ x.startTime) := by
  simp only [tryDay] at h
  by_cases hw : isWorkingDayNum p.workingDays d
  case neg => rw [if_neg hw] at h; cases h
  rw [if_pos hw] at h
  cases hde : dayEventsSorted evts d with
  | nil =>
    rw [hde] at h
    by_cases hfit : workStartMs p d + dur * msPerMinute ≤ workEndMs p d
    · rw [if_pos hfit] at h
      obtain rfl := (Option.some.injEq .. ▸ h).symm
      exact ⟨rfl, Or.inl rfl, Or.inl hfit⟩
    · rw [if_neg hfit] at h; cases h
  | cons e rest =>
    rw [hde] at h
    dsimp only at h
    have hmem : ∀ x ∈ e :: rest, x ∈ evts ∧ eventDayNumber x = d := by
      intro x hx
      exact (mem_dayEventsSorted evts d x).mp (hde ▸ hx)
    cases hfs : findSlot d dur buf (workStartMs p d) (e :: rest) with
    | some pl2 =>
      rw [hfs] at h
      have hpl : pl2 = pl := Option.some.inj h
      have hfs2 : findSlot d dur buf (workStartMs p d) (e :: rest) =
          some ⟨pl.startTime, pl.endTime, pl.reason⟩ := by rw [hfs, hpl]
      obtain ⟨f1, f2, f3, _⟩ := findSlot_sound d dur buf (e :: rest)
        (workStartMs p d) pl.startTime pl.endTime pl.reason hfs2
      refine ⟨f1, ?_, ?_⟩
      · rcases f2 with h2 | ⟨x, hx, h2⟩
        · exact Or.inl h2
        · exact Or.inr ⟨x, (hmem x hx).1, (hmem x hx).2, h2⟩
      · obtain ⟨x, hx, h3⟩ := f3
        exact Or.inr ⟨x, (hmem x hx).1, (hmem x hx).2, h3⟩
    | none =>
      rw [hfs] at h
      by_cases hfit : dur * msPerMinute ≤ workEndMs p d - ((lastEvent e rest).endTime + buf)
      · rw [if_pos hfit] at h
        obtain rfl := (Option.some.injEq .. ▸ h).symm
        have hlm := hmem (lastEvent e rest) (lastEvent_mem e rest)
        exact ⟨rfl, Or.inr ⟨lastEvent e rest, hlm.1, hlm.2, rfl⟩, Or.inl (by simp; omega)⟩
      · rw [if_neg hfit] at h; cases h

/-- Gap soundness of one day attempt: for well-formed, pairwise
same-day-disjoint events, a placed slot keeps a buffer gap to every event
whose start day is the scanned day. -/
theorem tryDay_gaps (p : Preferences) (dur buf : Int) (evts : List SchedEvent)
    (d : Int) (pl : Placement) (h : tryDay p dur buf evts d = some pl)
    (hwf : ∀ e ∈ evts, e.startTime < e.endTime)
    (hdisj : evts.Pairwise sameDayDisjoint) :
    ∀ f ∈ evts, eventDayNumber f = d →
      f.endTime + buf ≤ pl.startTime ∨ pl.endTime + buf ≤ f.startTime := by
  simp only [tryDay] at h
  by_cases hw : isWorkingDayNum p.workingDays d
  case neg => rw [if_neg hw] at h; cases h
  rw [if_pos hw] at h
  have hchain := dayEventsSorted_chain evts d hwf hdisj
  cases hde : dayEventsSorted evts d with
  | nil =>
    intro f hf hfd
    have : f ∈ dayEventsSorted evts d := (mem_dayEventsSorted evts d f).mpr ⟨hf, hfd⟩
    rw [hde] at this
    cases this
  | cons e rest =>
    rw [hde] at h
    dsimp only at h
    rw [hde] at hchain
    have hmem : ∀ x ∈ e :: rest, x ∈ evts ∧ eventDayNumber x = d := by
      intro x hx
      exact (mem_dayEventsSorted evts d x).mp (hde ▸ hx)
    have hwfl : ∀ x ∈ e :: rest, x.startTime < x.endTime :=
      fun x hx => hwf x (hmem x hx).1
    intro f hf hfd
    have hfl : f ∈ e :: rest := hde ▸ (mem_dayEventsSorted evts d f).mpr ⟨hf, hfd⟩
    cases hfs : findSlot d dur buf (workStartMs p d) (e :: rest) with
    | some pl2 =>
      rw [hfs] at h
      have hpl : pl2 = pl := Option.some.inj h
      have hfs2 : findSlot d dur buf (workStartMs p d) (e :: rest) =
          some ⟨pl.startTime, pl.endTime, pl.reason⟩ := by rw [hfs, hpl]
      obtain ⟨_, _, _, f4⟩ := findSlot_sound d dur buf (e :: rest)
        (workStartMs p d) pl.startTime pl.endTime pl.reason hfs2
      exact f4 hchain hwfl f hfl
    | none =>
      rw [hfs] at h
      by_cases hfit : dur * msPerMinute ≤ workEndMs p d - ((lastEvent e rest).endTime + buf)
      · rw [if_pos hfit] at h
        obtain rfl := (Option.some.injEq .. ▸ h).symm
        have hle := lastEvent_end_ge e rest hchain hwfl f hfl
        exact Or.inl (by simp; omega)
      · rw [if_neg hfit] at h; cases h

/-- Day containment of one day attempt: with parseable working hours,
a nonnegative buffer, a positive duration and well-formed events, the placed
interval lies inside the scanned calendar day. -/
theorem tryDay_day_bounds (p : Preferences) (dur buf : Int) (evts : List SchedEvent)
    (d : Int) (pl : Placement) (h : tryDay p dur buf evts d = some pl)
    (hval : validHours p) (hbuf : 0 ≤ buf) (hdur : 0 < dur)
    (hwf : ∀ e ∈ evts, e.startTime < e.endTime) :
    d * msPerDay ≤ pl.startTime ∧ pl.endTime < (d + 1) * msPerDay ∧
      dayOfMs pl.startTime = d := by
  obtain ⟨h1, h2, h3⟩ := tryDay_sound p dur buf evts d pl h
  obtain ⟨v1, v2, v3, v4, v5, v6, v7, v8⟩ := hval
  have hs : d * msPerDay ≤ pl.startTime := by
    rcases h2 with h2 | ⟨x, hx, hxd, h2⟩
    · simp only [workStartMs, msPerDay, msPerMinute] at *; omega
    · have hlb := dayOfMs_lower x.startTime
      have hwfx := hwf x hx
      simp only [eventDayNumber] at hxd
      simp only [msPerDay] at *
      omega
  have he : pl.endTime < (d + 1) * msPerDay := by
    rcases h3 with h3 | ⟨x, hx, hxd, h3⟩
    · simp only [workEndMs, msPerDay, msPerMinute] at *; omega
    · have hub := dayOfMs_upper x.startTime
      simp only [eventDayNumber] at hxd
      simp only [msPerDay] at *
      omega
  refine ⟨hs, he, dayOfMs_eq_of_bounds hs ?_⟩
  have : pl.startTime < pl.endTime := by
    simp only [msPerMinute] at h1
    omega
  omega

/-- Working-hours containment of one day attempt: if every event of the
scanned day lies inside the day's working window, so does the placed
interval. -/
theorem tryDay_within_hours (p : Preferences) (dur buf : Int) (evts : List SchedEvent)
    (d : Int) (pl : Placement) (h : tryDay p dur buf evts d = some pl)
    (hbuf : 0 ≤ buf)
    (hwf : ∀ e ∈ evts, e.startTime < e.endTime)
    (hwithin : ∀ e ∈ evts, eventDayNumber e = d →
      workStartMs p d ≤ e.startTime ∧ e.endTime ≤ workEndMs p d) :
    workStartMs p d ≤ pl.startTime ∧ pl.endTime ≤ workEndMs p d := by
  obtain ⟨h1, h2, h3⟩ := tryDay_sound p dur buf evts d pl h
  constructor
  · rcases h2 with h2 | ⟨x, hx, hxd, h2⟩
    · omega
    · have hw := hwithin x hx hxd
      have hwfx := hwf x hx
      omega
  · rcases h3 with h3 | ⟨x, hx, hxd, h3⟩
    · exact h3
    · have hw := hwithin x hx hxd
      have hwfx := hwf x hx
      omega

/-- A placement found by the day scan comes from one of the scanned days. -/
theorem scanDays_sound (p : Preferences) (dur buf : Int) (evts : List SchedEvent) :
    ∀ (days : List Int) (pl : Placement),
      scanDays p dur buf evts days = some pl →
      ∃ d ∈ days, tryDay p dur buf evts d = some pl := by
  intro days
  induction days with
  | nil => intro pl h; simp [scanDays] at h
  | cons d ds ih =>
    intro pl h
    simp only [scanDays] at h
    cases htd : tryDay p dur buf evts d with
    | some pl2 =>
      rw [htd] at h
      exact ⟨d, by simp, htd.trans (congrArg some (Option.some.inj h))⟩
    | none =>
      rw [htd] at h
      obtain ⟨d2, hd2, h2⟩ := ih pl h
      exact ⟨d2, List.mem_cons_of_mem d hd2, h2⟩

/-- Scanned days lie between the window start's day and the window end's
day. -/
theorem mem_daysToScan {lo hi d : Int} (h : d ∈ daysToScan lo hi) :
    dayOfMs lo ≤ d ∧ d ≤ dayOfMs hi := by
  unfold daysToScan numDaysToScan at h
  obtain ⟨k, hk, rfl⟩ := List.mem_map.mp h
  rw [List.mem_range] at hk
  by_cases hle : lo ≤ hi
  · rw [if_pos hle] at hk
    constructor
    · omega
    · simp only [dayOfMs, msPerDay]
      omega
  · rw [if_neg hle] at hk
    omega

/-- Inversion of one task step: the window is computed, and the state is
extended either by a placement (entry recorded, interval blocked) or by an
unscheduled record. -/
theorem scheduleOneTask_inv (p : Preferences) (now cur : Int) (st : SchedState)
    (idx : Nat) (t : SchedTask) (st2 : SchedState)
    (h : scheduleOneTask p now cur st idx t = some st2) :
    ∃ lo hi, taskWindow p cur t = some (lo, hi) ∧
      ((∃ pl, scanDays p (durationMinutes t) (p.breakDuration * msPerMinute)
          st.allEvents (daysToScan lo hi) = some pl ∧
        st2 = { st with
          allEvents := st.allEvents ++ [toBlockedEvent (mkScheduledEntry now idx t pl)],
          scheduled := st.scheduled ++ [mkScheduledEntry now idx t pl] }) ∨
       (scanDays p (durationMinutes t) (p.breakDuration * msPerMinute)
          st.allEvents (daysToScan lo hi) = none ∧
        st2 = { st with
          unscheduled := st.unscheduled ++ [mkUnscheduledEntry now idx t hi] })) := by
  unfold scheduleOneTask at h
  cases hw : taskWindow p cur t with
  | none => rw [hw] at h; cases h
  | some lohi =>
    obtain ⟨lo, hi⟩ := lohi
    rw [hw] at h
    dsimp only at h
    refine ⟨lo, hi, rfl, ?_⟩
    cases hs : scanDays p (durationMinutes t) (p.breakDuration * msPerMinute)
        st.allEvents (daysToScan lo hi) with
    | some pl =>
      rw [hs] at h
      exact Or.inl ⟨pl, rfl, (Option.some.inj h).symm⟩
    | none =>
      rw [hs] at h
      exact Or.inr ⟨rfl, (Option.some.inj h).symm⟩

/-- Structural soundness of the task loop: the input state's lists are
preserved as prefixes, every placed interval is also blocked in the working
event list (in the same order), every task yields exactly one output record,
placed entries carry the task's fields with the exact duration, and
unscheduled entries carry the reason dictated by the task's deadline. -/
theorem runTasks_structural (p : Preferences) (now cur : Int) :
    ∀ (ts : List SchedTask) (st st2 : SchedState) (idx : Nat),
      runTasks p now cur st idx ts = some st2 →
      ∃ ds us,
        st2.scheduled = st.scheduled ++ ds ∧
        st2.unscheduled = st.unscheduled ++ us ∧
        st2.allEvents = st.allEvents ++ ds.map toBlockedEvent ∧
        ds.length + us.length = ts.length ∧
        (∀ s ∈ ds, ∃ t ∈ ts, s.title = t.title ∧ s.description = t.description ∧
          s.priority = t.priority ∧
          s.endTime = s.startTime + durationMinutes t * msPerMinute) ∧
        (∀ u ∈ us, ∃ t ∈ ts, u.title = t.title ∧ ∃ lo hi,
          taskWindow p cur t = some (lo, hi) ∧
          (t.deadline.isSome = true →
            u.reason = FailReason.beforeDeadline (durationMinutes t) (dayOfMs hi)) ∧
          (t.deadline = none →
            u.reason = FailReason.noSlotInThirtyDayWindow (durationMinutes t))) := by
  intro ts
  induction ts with
  | nil =>
    intro st st2 idx h
    obtain rfl := Option.some.inj h
    exact ⟨[], [], by simp, by simp, by simp, rfl, by simp, by simp⟩
  | cons t ts ih =>
    intro st st2 idx h
    simp only [runTasks] at h
    cases hone : scheduleOneTask p now cur st idx t with
    | none => rw [hone] at h; cases h
    | some stm =>
      rw [hone] at h
      obtain ⟨ds, us, e1, e2, e3, e4, e5, e6⟩ := ih stm st2 (idx + 1) h
      obtain ⟨lo, hi, hwin, hcase⟩ := scheduleOneTask_inv p now cur st idx t stm hone
      rcases hcase with ⟨pl, hscan, rfl⟩ | ⟨hscan, rfl⟩
      · obtain ⟨d, _, htd⟩ := scanDays_sound p (durationMinutes t)
          (p.breakDuration * msPerMinute) st.allEvents (daysToScan lo hi) pl hscan
        obtain ⟨g1, _, _⟩ := tryDay_sound p (durationMinutes t)
          (p.breakDuration * msPerMinute) st.allEvents d pl htd
        refine ⟨mkScheduledEntry now idx t pl :: ds, us, ?_, ?_, ?_, ?_, ?_, ?_⟩
        · rw [e1]; simp
        · rw [e2]
        · rw [e3]; simp
        · simp only [List.length_cons] at *; omega
        · intro s hs
          rcases List.mem_cons.mp hs with rfl | hs2
          · exact ⟨t, by simp, rfl, rfl, rfl, g1⟩
          · obtain ⟨t2, ht2, hrest⟩ := e5 s hs2
            exact ⟨t2, List.mem_cons_of_mem t ht2, hrest⟩
        · intro u hu
          obtain ⟨t2, ht2, hrest⟩ := e6 u hu
          exact ⟨t2, List.mem_cons_of_mem t ht2, hrest⟩
      · refine ⟨ds, mkUnscheduledEntry now idx t hi :: us, ?_, ?_, ?_, ?_, ?_, ?_⟩
        · rw [e1]
        · rw [e2]; simp
        · rw [e3]
        · simp only [List.length_cons] at *; omega
        · intro s hs
          obtain ⟨t2, ht2, hrest⟩ := e5 s hs
          exact ⟨t2, List.mem_cons_of_mem t ht2, hrest⟩
        · intro u hu
          rcases List.mem_cons.mp hu with rfl | hu2
          · refine ⟨t, by simp, rfl, lo, hi, hwin, ?_, ?_⟩
            · intro hdl
              rcases hdl2 : t.deadline with _ | dl
              · rw [hdl2] at hdl; cases hdl
              · simp [mkUnscheduledEntry, hdl2]
            · intro hdl
              simp [mkUnscheduledEntry, hdl]
          · obtain ⟨t2, ht2, hrest⟩ := e6 u hu2
            exact ⟨t2, List.mem_cons_of_mem t ht2, hrest⟩

/-- Geometric soundness of the task loop: with parseable working hours, a
nonnegative buffer, positive durations, and a well-formed pairwise
same-day-disjoint working list, the loop preserves both invariants, and
every new entry lies on a working-window day between its window start's day
and its window end's day, inside its own calendar day, with the exact
duration. -/
theorem runTasks_invariant (p : Preferences) (now cur : Int)
    (hval : validHours p) (hbuf : 0 ≤ p.breakDuration) :
    ∀ (ts : List SchedTask) (st st2 : SchedState) (idx : Nat),
      (∀ t ∈ ts, 0 < durationMinutes t) →
      (∀ e ∈ st.allEvents, e.startTime < e.endTime) →
      st.allEvents.Pairwise sameDayDisjoint →
      runTasks p now cur st idx ts = some st2 →
      (∀ e ∈ st2.allEvents, e.startTime < e.endTime) ∧
      st2.allEvents.Pairwise sameDayDisjoint ∧
      (∀ s ∈ st2.scheduled, s ∈ st.scheduled ∨ ∃ t ∈ ts, ∃ lo hi,
        taskWindow p cur t = some (lo, hi) ∧
        dayOfMs lo ≤ dayOfMs s.startTime ∧ dayOfMs s.startTime ≤ dayOfMs hi ∧
        s.endTime < (dayOfMs s.startTime + 1) * msPerDay ∧
        s.endTime = s.startTime + durationMinutes t * msPerMinute) := by
  have hbufms : (0 : Int) ≤ p.breakDuration * msPerMinute := by
    simp only [msPerMinute]; omega
  intro ts
  induction ts with
  | nil =>
    intro st st2 idx hdur hwf hdisj h
    obtain rfl := Option.some.inj h
    exact ⟨hwf, hdisj, fun s hs => Or.inl hs⟩
  | cons t ts ih =>
    intro st st2 idx hdur hwf hdisj h
    simp only [runTasks] at h
    cases hone : scheduleOneTask p now cur st idx t with
    | none => rw [hone] at h; cases h
    | some stm =>
      rw [hone] at h
      dsimp only at h
      obtain ⟨lo, hi, hwin, hcase⟩ := scheduleOneTask_inv p now cur st idx t stm hone
      rcases hcase with ⟨pl, hscan, rfl⟩ | ⟨hscan, rfl⟩
      · obtain ⟨d, hd, htd⟩ := scanDays_sound p (durationMinutes t)
          (p.breakDuration * msPerMinute) st.allEvents (daysToScan lo hi) pl hscan
        obtain ⟨g1, _, _⟩ := tryDay_sound p (durationMinutes t)
          (p.breakDuration * msPerMinute) st.allEvents d pl htd
        obtain ⟨b1, b2, b3⟩ := tryDay_day_bounds p (durationMinutes t)
          (p.breakDuration * msPerMinute) st.allEvents d pl htd hval hbufms
          (hdur t (by simp)) hwf
        have hgaps := tryDay_gaps p (durationMinutes t)
          (p.breakDuration * msPerMinute) st.allEvents d pl htd hwf hdisj
        have hwfnew : ∀ e ∈ st.allEvents ++ [toBlockedEvent (mkScheduledEntry now idx t pl)],
            e.startTime < e.endTime := by
          intro e he
          rcases List.mem_append.mp he with he | he
          · exact hwf e he
          · have hdt := hdur t (by simp)
            simp only [List.mem_singleton] at he
            subst he
            simp only [toBlockedEvent, mkScheduledEntry]
            simp only [msPerMinute] at g1 ⊢
            omega
        have hdisjnew : (st.allEvents ++ [toBlockedEvent (mkScheduledEntry now idx t pl)]).Pairwise
            sameDayDisjoint := by
          rw [List.pairwise_append]
          refine ⟨hdisj, by simp, ?_⟩
          intro a ha b hb
          simp only [List.mem_singleton] at hb
          subst hb
          intro hday
          have hbd : eventDayNumber (toBlockedEvent (mkScheduledEntry now idx t pl)) = d := by
            simp only [eventDayNumber, toBlockedEvent, mkScheduledEntry]
            exact b3
          rcases hgaps a ha (by rw [hday, hbd]) with hg | hg
          · exact Or.inl (by simp only [toBlockedEvent, mkScheduledEntry]; omega)
          · exact Or.inr (by simp only [toBlockedEvent, mkScheduledEntry]; omega)
        obtain ⟨i1, i2, i3⟩ := ih _ st2 (idx + 1)
          (fun x hx => hdur x (List.mem_cons_of_mem t hx)) hwfnew hdisjnew h
        refine ⟨i1, i2, ?_⟩
        intro s hs
        rcases i3 s hs with hs2 | ⟨t2, ht2, spec⟩
        · simp only [List.mem_append, List.mem_singleton] at hs2
          rcases hs2 with hs2 | rfl
          · exact Or.inl hs2
          · refine Or.inr ⟨t, by simp, lo, hi, hwin, ?_, ?_, ?_, ?_⟩
            · have := (mem_daysToScan hd).1
              simp only [mkScheduledEntry]
              omega
            · have := (mem_daysToScan hd).2
              simp only [mkScheduledEntry]
              omega
            · simp only [mkScheduledEntry]
              rw [b3]
              exact b2
            · simp only [mkScheduledEntry]
              exact g1
        · exact Or.inr ⟨t2, List.mem_cons_of_mem t ht2, spec⟩
      · obtain ⟨i1, i2, i3⟩ := ih
          { st with unscheduled := st.unscheduled ++ [mkUnscheduledEntry now idx t hi] }
          st2 (idx + 1) (fun x hx => hdur x (List.mem_cons_of_mem t hx)) hwf hdisj h
        refine ⟨i1, i2, ?_⟩
        intro s hs
        rcases i3 s hs with hs2 | ⟨t2, ht2, spec⟩
        · exact Or.inl hs2
        · exact Or.inr ⟨t2, List.mem_cons_of_mem t ht2, spec⟩

/-- Working-hours soundness of the task loop: with parseable working hours,
a nonnegative buffer, positive durations, and well-formed events that all
lie inside the working window of their own start day, every new entry also
lies inside the working window of its own start day. -/
theorem runTasks_within_hours (p : Preferences) (now cur : Int)
    (hval : validHours p) (hbuf : 0 ≤ p.breakDuration) :
    ∀ (ts : List SchedTask) (st st2 : SchedState) (idx : Nat),
      (∀ t ∈ ts, 0 < durationMinutes t) →
      (∀ e ∈ st.allEvents, e.startTime < e.endTime) →
      (∀ e ∈ st.allEvents, withinWorkingHours p e) →
      runTasks p now cur st idx ts = some st2 →
      (∀ e ∈ st2.allEvents, e.startTime < e.endTime) ∧
      (∀ e ∈ st2.allEvents, withinWorkingHours p e) ∧
      (∀ s ∈ st2.scheduled, s ∈ st.scheduled ∨
        (workStartMs p (dayOfMs s.startTime) ≤ s.startTime ∧
          s.endTime ≤ workEndMs p (dayOfMs s.startTime))) := by
  have hbufms : (0 : Int) ≤ p.breakDuration * msPerMinute := by
    simp only [msPerMinute]; omega
  intro ts
  induction ts with
  | nil =>
    intro st st2 idx hdur hwf hwithin h
    obtain rfl := Option.some.inj h
    exact ⟨hwf, hwithin, fun s hs => Or.inl hs⟩
  | cons t ts ih =>
    intro st st2 idx hdur hwf hwithin h
    simp only [runTasks] at h
    cases hone : scheduleOneTask p now cur st idx t with
    | none => rw [hone] at h; cases h
    | some stm =>
      rw [hone] at h
      dsimp only at h
      obtain ⟨lo, hi, hwin, hcase⟩ := scheduleOneTask_inv p now cur st idx t stm hone
      rcases hcase with ⟨pl, hscan, rfl⟩ | ⟨hscan, rfl⟩
      · obtain ⟨d, hd, htd⟩ := scanDays_sound p (durationMinutes t)
          (p.breakDuration * msPerMinute) st.allEvents (daysToScan lo hi) pl hscan
        obtain ⟨g1, _, _⟩ := tryDay_sound p (durationMinutes t)
          (p.breakDuration * msPerMinute) st.allEvents d pl htd
        obtain ⟨b1, b2, b3⟩ := tryDay_day_bounds p (durationMinutes t)
          (p.breakDuration * msPerMinute) st.allEvents d pl htd hval hbufms
          (hdur t (by simp)) hwf
        obtain ⟨w1, w2⟩ := tryDay_within_hours p (durationMinutes t)
          (p.breakDuration * msPerMinute) st.allEvents d pl htd hbufms hwf
          (fun e he hed => by
            have := hwithin e he
            unfold withinWorkingHours at this
            rw [hed] at this
            exact this)
        have hwfnew : ∀ e ∈ st.allEvents ++ [toBlockedEvent (mkScheduledEntry now idx t pl)],
            e.startTime < e.endTime := by
          intro e he
          rcases List.mem_append.mp he with he | he
          · exact hwf e he
          · have hdt := hdur t (by simp)
            simp only [List.mem_singleton] at he
            subst he
            simp only [toBlockedEvent, mkScheduledEntry]
            simp only [msPerMinute] at g1 ⊢
            omega
        have hwithinnew : ∀ e ∈ st.allEvents ++
            [toBlockedEvent (mkScheduledEntry now idx t pl)], withinWorkingHours p e := by
          intro e he
          rcases List.mem_append.mp he with he | he
          · exact hwithin e he
          · simp only [List.mem_singleton] at he
            subst he
            unfold withinWorkingHours
            simp only [eventDayNumber, toBlockedEvent, mkScheduledEntry]
            rw [b3]
            exact ⟨w1, w2⟩
        obtain ⟨i1, i2, i3⟩ := ih _ st2 (idx + 1)
          (fun x hx => hdur x (List.mem_cons_of_mem t hx)) hwfnew hwithinnew h
        refine ⟨i1, i2, ?_⟩
        intro s hs
        rcases i3 s hs with hs2 | hs2
        · simp only [List.mem_append, List.mem_singleton] at hs2
          rcases hs2 with hs2 | rfl
          · exact Or.inl hs2
          · refine Or.inr ?_
            simp only [mkScheduledEntry]
            rw [b3]
            exact ⟨w1, w2⟩
        · exact Or.inr hs2
      · obtain ⟨i1, i2, i3⟩ := ih
          { st with unscheduled := st.unscheduled ++ [mkUnscheduledEntry now idx t hi] }
          st2 (idx + 1) (fun x hx => hdur x (List.mem_cons_of_mem t hx)) hwf hwithin h
        exact ⟨i1, i2, fun s hs => i3 s hs⟩

/-- With no working days configured, the roll-forward search finds no exit
offset (the JavaScript loop spins forever). -/
theorem firstWorkingOffset_empty (t : Int) : firstWorkingOffset [] t = none := by
  unfold firstWorkingOffset
  rw [List.find?_eq_none]
  intro x _
  simp [isWorkingDayNum]

/-- With no working days configured, the window computation never returns:
the start roll-forward is the source's `while (true)` loop. -/
theorem taskWindow_none_of_no_working_days (p : Preferences) (cur : Int) (t : SchedTask)
    (hwd : p.workingDays = []) : taskWindow p cur t = none := by
  unfold taskWindow advanceStartToWorkingDay
  rw [hwd]
  simp [isWorkingDayNum, firstWorkingOffset_empty]

/-- With no working days and at least one task, the whole scheduling
computation diverges (modelled as `none`): the first processed task enters
the unbounded next-working-day loop. -/
theorem runScheduler_none_of_no_working_days (p : Preferences) (now cur : Int)
    (tasks : List SchedTask) (evts : List SchedEvent)
    (hwd : p.workingDays = []) (hne : tasks ≠ []) :
    runScheduler p now cur tasks evts = none := by
  unfold runScheduler
  have hlen := (sortWith_perm cmpTask tasks).length_eq
  cases hsort : sortWith cmpTask tasks with
  | nil =>
    rw [hsort] at hlen
    exact absurd (List.eq_nil_of_length_eq_zero hlen.symm) hne
  | cons t ts =>
    have hone : scheduleOneTask p now cur ⟨evts, [], []⟩ 0 t = none := by
      unfold scheduleOneTask
      rw [taskWindow_none_of_no_working_days p cur t hwd]
    simp only [runTasks, hone]

/-- A JavaScript-truthy task id makes the resolved id independent of the
clock. -/
theorem resolveTaskId_now_irrel (n n2 : Int) (idx : Nat) (t : SchedTask)
    (h : hasUsableId t) : resolveTaskId n idx t = resolveTaskId n2 idx t := by
  unfold hasUsableId at h
  rcases hid : t.id with _ | s
  · rw [hid] at h; simp at h
  · rw [hid] at h
    simp only [Option.getD] at h
    unfold resolveTaskId
    rw [hid]
    simp [h]

/-- One task step is clock-independent when the task has a usable id. -/
theorem scheduleOneTask_now_irrel (p : Preferences) (n n2 cur : Int) (st : SchedState)
    (idx : Nat) (t : SchedTask) (h : hasUsableId t) :
    scheduleOneTask p n cur st idx t = scheduleOneTask p n2 cur st idx t := by
  have hid := resolveTaskId_now_irrel n n2 idx t h
  unfold scheduleOneTask mkScheduledEntry mkUnscheduledEntry
  rw [hid]

/-- The task loop is clock-independent when every task has a usable id. -/
theorem runTasks_now_irrel (p : Preferences) (n n2 cur : Int) :
    ∀ (ts : List SchedTask) (st : SchedState) (idx : Nat),
      (∀ t ∈ ts, hasUsableId t) →
      runTasks p n cur st idx ts = runTasks p n2 cur st idx ts := by
  intro ts
  induction ts with
  | nil => intro st idx _; rfl
  | cons t ts ih =>
    intro st idx h
    simp only [runTasks]
    rw [scheduleOneTask_now_irrel p n n2 cur st idx t (h t (by simp))]
    cases hone : scheduleOneTask p n2 cur st idx t with
    | none => rfl
    | some stm => exact ih stm (idx + 1) (fun x hx => h x (List.mem_cons_of_mem t hx))

/-- Erasing `dependencies` does not change the task comparator. -/
theorem cmpTask_strip (a b : SchedTask) :
    cmpTask (stripSchedTask a) (stripSchedTask b) = cmpTask a b := rfl

/-- Insertion commutes with erasing `dependencies`. -/
theorem insertBy_strip (x : SchedTask) (l : List SchedTask) :
    insertBy cmpTask (stripSchedTask x) (l.map stripSchedTask) =
      (insertBy cmpTask x l).map stripSchedTask := by
  induction l with
  | nil => rfl
  | cons y ys ih =>
    simp only [List.map_cons, insertBy, cmpTask_strip]
    by_cases h : cmpTask y x < 0
    · simp [h, ih]
    · simp [h]

/-- The task sort commutes with erasing `dependencies`. -/
theorem sortWith_strip (l : List SchedTask) :
    sortWith cmpTask (l.map stripSchedTask) = (sortWith cmpTask l).map stripSchedTask := by
  induction l with
  | nil => rfl
  | cons a l ih =>
    show insertBy cmpTask (stripSchedTask a) (sortWith cmpTask (l.map stripSchedTask)) = _
    rw [ih, insertBy_strip]
    rfl

/-- One day attempt does not read `maxTasksPerDay`. -/
theorem tryDay_strip (p : Preferences) (dur buf : Int) (evts : List SchedEvent) (d : Int) :
    tryDay (stripPreferences p) dur buf evts d = tryDay p dur buf evts d := rfl

/-- The day scan does not read `maxTasksPerDay`. -/
theorem scanDays_strip (p : Preferences) (dur buf : Int) (evts : List SchedEvent) :
    ∀ days : List Int,
      scanDays (stripPreferences p) dur buf evts days = scanDays p dur buf evts days := by
  intro days
  induction days with
  | nil => rfl
  | cons d ds ih => simp only [scanDays, tryDay_strip, ih]

/-- The window computation reads neither `maxTasksPerDay` nor
`dependencies`. -/
theorem taskWindow_strip (p : Preferences) (cur : Int) (t : SchedTask) :
    taskWindow (stripPreferences p) cur (stripSchedTask t) = taskWindow p cur t := rfl

/-- One task step reads neither `maxTasksPerDay` nor `dependencies`. -/
theorem scheduleOneTask_strip (p : Preferences) (n cur : Int) (st : SchedState)
    (idx : Nat) (t : SchedTask) :
    scheduleOneTask (stripPreferences p) n cur st idx (stripSchedTask t) =
      scheduleOneTask p n cur st idx t := by
  have h1 : durationMinutes (stripSchedTask t) = durationMinutes t := rfl
  have h2 : (stripPreferences p).breakDuration = p.breakDuration := rfl
  have h3 : ∀ (i : Nat) (pl : Placement),
      mkScheduledEntry n i (stripSchedTask t) pl = mkScheduledEntry n i t pl :=
    fun _ _ => rfl
  have h4 : ∀ (i : Nat) (hi : Int),
      mkUnscheduledEntry n i (stripSchedTask t) hi = mkUnscheduledEntry n i t hi :=
    fun _ _ => rfl
  simp only [scheduleOneTask, taskWindow_strip, h1, h2, h3, h4, scanDays_strip]

/-- The task loop reads neither `maxTasksPerDay` nor `dependencies`. -/
theorem runTasks_strip (p : Preferences) (n cur : Int) :
    ∀ (ts : List SchedTask) (st : SchedState) (idx : Nat),
      runTasks (stripPreferences p) n cur st idx (ts.map stripSchedTask) =
        runTasks p n cur st idx ts := by
  intro ts
  induction ts with
  | nil => intro st idx; rfl
  | cons t ts ih =>
    intro st idx
    simp only [List.map_cons, runTasks]
    rw [scheduleOneTask_strip p n cur st idx t]
    cases hone : scheduleOneTask p n cur st idx t with
    | none => rfl
    | some stm => exact ih stm (idx + 1)

/-- The whole scheduler reads neither `maxTasksPerDay` nor `dependencies`. -/
theorem runScheduler_strip (p : Preferences) (n cur : Int) (tasks : List SchedTask)
    (evts : List SchedEvent) :
    runScheduler (stripPreferences p) n cur (tasks.map stripSchedTask) evts =
      runScheduler p n cur tasks evts := by
  unfold runScheduler
  rw [sortWith_strip]
  exact runTasks_strip p n cur (sortWith cmpTask tasks) ⟨evts, [], []⟩ 0

/-- The full response reads neither `maxTasksPerDay` nor `dependencies`. -/
theorem generateSchedule_strip (p : Preferences) (n cur : Int) (tasks : List SchedTask)
    (evts : List SchedEvent) :
    generateSchedule (stripPreferences p) n cur (tasks.map stripSchedTask) evts =
      generateSchedule p n cur tasks evts := by
  unfold generateSchedule
  rw [runScheduler_strip]
  simp

/-- Non-overlap of a pair entails the same-day-conditioned version. -/
theorem eventsDisjoint_to_sameDay {a b : SchedEvent} (h : eventsDisjoint a b) :
    sameDayDisjoint a b := fun _ => h

/-- C1 counterexample: the claim quantifies only over requests whose
`existingEvents` are pairwise non-overlapping.  A single degenerate event
whose `endTime` precedes its `startTime` satisfies that hypothesis
vacuously, yet the gap-walking cursor moves backwards past it and the
scheduler emits two same-day entries that overlap (and are separated by far
less than the 15-minute `breakDuration`), so the claimed no-overlap-or-gap
property fails on the returned schedule. -/
theorem c1_counterexample :
    List.Pairwise eventsDisjoint [cexReversedEvent] ∧
    runScheduler prefsAllDays 0 mondayRef [cexHalfHourTaskA, cexHalfHourTaskB]
        [cexReversedEvent] = some cexOverlapState ∧
    ¬ ([cexReversedEvent] ++ cexOverlapState.scheduled.map toBlockedEvent).Pairwise
        (claimGapOk prefsAllDays.breakDuration) := by decide

/-- C1 (amended): for parseable working hours, a nonnegative
`breakDuration`, positive task durations, and existing events that are
well-formed (`startTime < endTime`) and pairwise non-overlapping, every
pair of intervals drawn from the returned schedule together with the input
events whose start days coincide does not overlap (which entails the
original no-overlap-or-buffer-gap disjunction). -/
theorem c1_same_day_no_overlap (p : Preferences) (now cur : Int)
    (tasks : List SchedTask) (evts : List SchedEvent) (st : SchedState)
    (hval : validHours p) (hbuf : 0 ≤ p.breakDuration)
    (hdur : ∀ t ∈ tasks, 0 < durationMinutes t)
    (hwf : ∀ e ∈ evts, e.startTime < e.endTime)
    (hdisj : evts.Pairwise eventsDisjoint)
    (hrun : runScheduler p now cur tasks evts = some st) :
    (evts ++ st.scheduled.map toBlockedEvent).Pairwise sameDayDisjoint := by
  have hdisj2 : evts.Pairwise sameDayDisjoint := hdisj.imp eventsDisjoint_to_sameDay
  have hdur2 : ∀ t ∈ sortWith cmpTask tasks, 0 < durationMinutes t :=
    fun t ht => hdur t ((mem_sortWith cmpTask tasks t).mp ht)
  obtain ⟨_, i2, _⟩ := runTasks_invariant p now cur hval hbuf (sortWith cmpTask tasks)
    ⟨evts, [], []⟩ st 0 hdur2 hwf hdisj2 hrun
  obtain ⟨ds, us, e1, _, e3, _, _, _⟩ := runTasks_structural p now cur
    (sortWith cmpTask tasks) ⟨evts, [], []⟩ st 0 hrun
  simp only [List.nil_append] at e1
  rw [e1, ← e3]
  exact i2

/-- Witness for C1 (amended) at a concrete input. -/
theorem c1_same_day_no_overlap_witness :
    ([wEvent] ++ wState.scheduled.map toBlockedEvent).Pairwise sameDayDisjoint :=
  c1_same_day_no_overlap prefsDefault 0 mondayRef [wTask] [wEvent] wState
    (by decide) (by decide) (by decide) (by decide) (by decide) (by decide)

/-- C2: with an empty `workingDays` list and at least one task, the
scheduling computation does not terminate — the first task's
next-working-day roll-forward is a `while (true)` loop that never exits
(modelled as `none`) — contradicting the claim that it terminates and
reports every task unscheduled. -/
theorem c2_no_working_days_diverges (p : Preferences) (now cur : Int)
    (tasks : List SchedTask) (evts : List SchedEvent)
    (hwd : p.workingDays = []) (hne : tasks ≠ []) :
    runScheduler p now cur tasks evts = none :=
  runScheduler_none_of_no_working_days p now cur tasks evts hwd hne

/-- Witness for C2 at a concrete input. -/
theorem c2_no_working_days_diverges_witness :
    prefsNoDays.workingDays = [] ∧ ([wTask] : List SchedTask) ≠ [] ∧
      runScheduler prefsNoDays 0 mondayRef [wTask] [] = none :=
  ⟨rfl, by decide,
    c2_no_working_days_diverges prefsNoDays 0 mondayRef [wTask] [] rfl (by decide)⟩

/-- C3 counterexample: two tasks with equal deadlines, the first
low-priority and the second high-priority.  The claim says the
higher-priority task precedes, but the comparator returns the deadline
difference `0` without consulting priority, so the stable sort keeps the
low-priority task first. -/
theorem c3_counterexample :
    cexDeadlineLow.deadline = cexDeadlineHigh.deadline ∧
    priorityRank cexDeadlineHigh.priority < priorityRank cexDeadlineLow.priority ∧
    sortWith cmpTask [cexDeadlineLow, cexDeadlineHigh] =
      [cexDeadlineLow, cexDeadlineHigh] := by decide

/-- C3 (amended): the sort is a permutation of the input in which tasks
with deadlines precede tasks without, earlier deadlines precede later ones,
and among tasks that both lack deadlines higher priority precedes; tasks
whose comparator keys are equal — equal deadlines (priority is NOT used as
a tie-break between equal deadlines), or both deadline-free with equal
priority — keep their original relative order (stability, witnessed by the
index-tagged sort). -/
theorem c3_sort_ordering (tasks : List SchedTask) :
    (sortWith cmpTask tasks).Perm tasks ∧
    (sortWith cmpTask tasks).Pairwise (fun a b =>
      ((∃ x, a.deadline = some x) ∧ b.deadline = none) ∨
      (∃ x y, a.deadline = some x ∧ b.deadline = some y ∧ x ≤ y) ∨
      (a.deadline = none ∧ b.deadline = none ∧
        priorityRank a.priority ≤ priorityRank b.priority)) ∧
    (sortWith cmpTaskIdx (indexFrom 0 tasks)).map Prod.snd = sortWith cmpTask tasks ∧
    (sortWith cmpTaskIdx (indexFrom 0 tasks)).Pairwise
      (fun a b => cmpTaskIdx a b = 0 → a.1 < b.1) := by
  refine ⟨sortWith_perm cmpTask tasks, ?_, sortWith_indexed_snd tasks 0,
    stable_sortWith_indexed _ (indexFrom_increasing 0 tasks)⟩
  refine (sortWith_pairwise cmpTask cmpTask_anti cmpTask_trans tasks).imp ?_
  intro a b h
  rcases ha : a.deadline with _ | da <;> rcases hb : b.deadline with _ | db
  · refine Or.inr (Or.inr ⟨rfl, rfl, ?_⟩)
    simp only [cmpTask, ha, hb] at h
    omega
  · simp only [cmpTask, ha, hb] at h
    omega
  · exact Or.inl ⟨⟨da, rfl⟩, rfl⟩
  · refine Or.inr (Or.inl ⟨da, db, rfl, rfl, ?_⟩)
    simp only [cmpTask, ha, hb] at h
    omega

/-- C4 counterexample: with the reference time Monday 11:00 (inside working
hours) and an unconstrained task, the resolved earliest start is Monday
11:00 itself, yet the scheduler places the task at Monday 09:00 — before
the task's resolved earliest start, contradicting the claimed lower
bound. -/
theorem c4_counterexample :
    runScheduler prefsDefault 0 cexMidMorning [wTaskPlain] [] = some cexPastState ∧
    taskWindow prefsDefault cexMidMorning wTaskPlain =
      some (cexMidMorning, 2998800000) ∧
    cexPastState.scheduled.map (fun s => s.startTime) = [mondayRef + 9 * msPerHour] ∧
    mondayRef + 9 * msPerHour < cexMidMorning := by decide

/-- C4 (amended): for parseable working hours, nonnegative buffer, positive
durations and well-formed pairwise non-overlapping events, every scheduled
entry starts no earlier than midnight of its task's resolved earliest-start
day, ends before the midnight following its task's effective window end
(the deadline rolled to a working day and snapped to the end hour, or the
30-day default), and has the exact requested duration. -/
theorem c4_window_day_bounds (p : Preferences) (now cur : Int)
    (tasks : List SchedTask) (evts : List SchedEvent) (st : SchedState)
    (hval : validHours p) (hbuf : 0 ≤ p.breakDuration)
    (hdur : ∀ t ∈ tasks, 0 < durationMinutes t)
    (hwf : ∀ e ∈ evts, e.startTime < e.endTime)
    (hdisj : evts.Pairwise eventsDisjoint)
    (hrun : runScheduler p now cur tasks evts = some st) :
    ∀ s ∈ st.scheduled, ∃ t ∈ tasks, ∃ lo hi,
      taskWindow p cur t = some (lo, hi) ∧
      dayOfMs lo * msPerDay ≤ s.startTime ∧
      s.endTime < (dayOfMs hi + 1) * msPerDay ∧
      s.endTime = s.startTime + durationMinutes t * msPerMinute := by
  have hdisj2 : evts.Pairwise sameDayDisjoint := hdisj.imp eventsDisjoint_to_sameDay
  have hdur2 : ∀ t ∈ sortWith cmpTask tasks, 0 < durationMinutes t :=
    fun t ht => hdur t ((mem_sortWith cmpTask tasks t).mp ht)
  obtain ⟨_, _, i3⟩ := runTasks_invariant p now cur hval hbuf (sortWith cmpTask tasks)
    ⟨evts, [], []⟩ st 0 hdur2 hwf hdisj2 hrun
  intro s hs
  rcases i3 s hs with hmem | ⟨t, ht, lo, hi, hw, h1, h2, h3, h4⟩
  · simp at hmem
  · refine ⟨t, (mem_sortWith cmpTask tasks t).mp ht, lo, hi, hw, ?_, ?_, h4⟩
    · have hlb := dayOfMs_lower s.startTime
      simp only [msPerDay] at *
      omega
    · simp only [msPerDay] at *
      omega

/-- Witness for C4 (amended) at a concrete input. -/
theorem c4_window_day_bounds_witness :
    ∃ t ∈ ([wTask] : List SchedTask), ∃ lo hi,
      taskWindow prefsDefault mondayRef t = some (lo, hi) ∧
      dayOfMs lo * msPerDay ≤ wEntry.startTime ∧
      wEntry.endTime < (dayOfMs hi + 1) * msPerDay ∧
      wEntry.endTime = wEntry.startTime + durationMinutes t * msPerMinute :=
  c4_window_day_bounds prefsDefault 0 mondayRef [wTask] [wEvent] wState
    (by decide) (by decide) (by decide) (by decide) (by decide) (by decide)
    wEntry (by decide)

/-- C5 counterexample: a 10-hour task and an existing event at Monday
20:00-21:00.  The gap before that event is checked only against the event's
start, never against the working-hours end, so the task is scheduled
09:00-19:00 — ending two hours after the 17:00 working-hours end on its own
calendar day, contradicting the claimed containment. -/
theorem c5_counterexample :
    runScheduler prefsDefault 0 mondayRef [cexLongTask] [cexLateEvent] =
      some cexOvershootState ∧
    cexOvershootState.scheduled.map (fun s => (dayOfMs s.startTime, s.endTime)) =
      [(4, mondayRef + 19 * msPerHour)] ∧
    workEndMs prefsDefault 4 < mondayRef + 19 * msPerHour := by decide

/-- C5 (amended): for parseable working hours, nonnegative buffer, positive
durations, and well-formed existing events that all lie inside the working
window of their own start day, every scheduled interval starts at or after
`workingHours.start` and ends at or before `workingHours.end` on its own
calendar day. -/
theorem c5_within_hours (p : Preferences) (now cur : Int)
    (tasks : List SchedTask) (evts : List SchedEvent) (st : SchedState)
    (hval : validHours p) (hbuf : 0 ≤ p.breakDuration)
    (hdur : ∀ t ∈ tasks, 0 < durationMinutes t)
    (hwf : ∀ e ∈ evts, e.startTime < e.endTime)
    (hwithin : ∀ e ∈ evts, withinWorkingHours p e)
    (hrun : runScheduler p now cur tasks evts = some st) :
    ∀ s ∈ st.scheduled, workStartMs p (dayOfMs s.startTime) ≤ s.startTime ∧
      s.endTime ≤ workEndMs p (dayOfMs s.startTime) := by
  have hdur2 : ∀ t ∈ sortWith cmpTask tasks, 0 < durationMinutes t :=
    fun t ht => hdur t ((mem_sortWith cmpTask tasks t).mp ht)
  obtain ⟨_, _, i3⟩ := runTasks_within_hours p now cur hval hbuf
    (sortWith cmpTask tasks) ⟨evts, [], []⟩ st 0 hdur2 hwf hwithin hrun
  intro s hs
  rcases i3 s hs with hmem | h
  · simp at hmem
  · exact h

/-- Witness for C5 (amended) at a concrete input. -/
theorem c5_within_hours_witness :
    workStartMs prefsDefault (dayOfMs wEntry.startTime) ≤ wEntry.startTime ∧
      wEntry.endTime ≤ workEndMs prefsDefault (dayOfMs wEntry.startTime) :=
  c5_within_hours prefsDefault 0 mondayRef [wTask] [wEvent] wState
    (by decide) (by decide) (by decide) (by decide) (by decide) (by decide)
    wEntry (by decide)

/-- C6 counterexample: a task without an id.  Its output `taskId` comes
from the `Date.now()` fallback, so two runs of the computation at different
clock instants on identical inputs (same tasks, preferences, events, and
injected reference date) produce different outputs. -/
theorem c6_counterexample :
    generateSchedule prefsDefault 0 mondayRef [cexAnonTask] [] ≠
      generateSchedule prefsDefault 1 mondayRef [cexAnonTask] [] := by decide

/-- C6 (amended): when every task carries a JavaScript-truthy id, the
output does not depend on the ambient clock, so two runs on identical
inputs with the same injected reference date are identical. -/
theorem c6_deterministic_with_ids (p : Preferences) (n1 n2 cur : Int)
    (tasks : List SchedTask) (evts : List SchedEvent)
    (hids : ∀ t ∈ tasks, hasUsableId t) :
    generateSchedule p n1 cur tasks evts = generateSchedule p n2 cur tasks evts := by
  unfold generateSchedule runScheduler
  rw [runTasks_now_irrel p n1 n2 cur (sortWith cmpTask tasks) ⟨evts, [], []⟩ 0
    (fun t ht => hids t ((mem_sortWith cmpTask tasks t).mp ht))]

/-- Witness for C6 (amended) at a concrete input. -/
theorem c6_deterministic_with_ids_witness :
    generateSchedule prefsDefault 0 mondayRef [wTask] [wEvent] =
      generateSchedule prefsDefault 987654321 mondayRef [wTask] [wEvent] :=
  c6_deterministic_with_ids prefsDefault 0 987654321 mondayRef [wTask] [wEvent]
    (by decide)

/-- C7: whenever the scheduling computation completes, every task yields
exactly one output record (placed or unscheduled, so one unplaceable task
never aborts processing of the rest), and every unscheduled record's reason
cites the effective deadline date when the task has a deadline and the
default 30-day window otherwise. -/
theorem c7_failure_semantics (p : Preferences) (now cur : Int)
    (tasks : List SchedTask) (evts : List SchedEvent) (st : SchedState)
    (hrun : runScheduler p now cur tasks evts = some st) :
    st.scheduled.length + st.unscheduled.length = tasks.length ∧
    ∀ u ∈ st.unscheduled, ∃ t ∈ tasks, u.title = t.title ∧ ∃ lo hi,
      taskWindow p cur t = some (lo, hi) ∧
      (t.deadline.isSome = true →
        u.reason = FailReason.beforeDeadline (durationMinutes t) (dayOfMs hi)) ∧
      (t.deadline = none →
        u.reason = FailReason.noSlotInThirtyDayWindow (durationMinutes t)) := by
  obtain ⟨ds, us, e1, e2, _, e4, _, e6⟩ := runTasks_structural p now cur
    (sortWith cmpTask tasks) ⟨evts, [], []⟩ st 0 hrun
  simp only [List.nil_append] at e1 e2
  constructor
  · rw [e1, e2, ← (sortWith_perm cmpTask tasks).length_eq]
    exact e4
  · intro u hu
    obtain ⟨t, ht, spec⟩ := e6 u (e2 ▸ hu)
    exact ⟨t, (mem_sortWith cmpTask tasks t).mp ht, spec⟩

/-- Witness for C7 at a concrete input with an unplaceable task. -/
theorem c7_failure_semantics_witness :
    wFailState.scheduled.length + wFailState.unscheduled.length =
      ([wTaskBig] : List SchedTask).length ∧
    ∀ u ∈ wFailState.unscheduled, ∃ t ∈ ([wTaskBig] : List SchedTask),
      u.title = t.title ∧ ∃ lo hi,
      taskWindow prefsDefault mondayRef t = some (lo, hi) ∧
      (t.deadline.isSome = true →
        u.reason = FailReason.beforeDeadline (durationMinutes t) (dayOfMs hi)) ∧
      (t.deadline = none →
        u.reason = FailReason.noSlotInThirtyDayWindow (durationMinutes t)) :=
  c7_failure_semantics prefsDefault 0 mondayRef [wTaskBig] [] wFailState (by decide)

/-- C8: two requests that differ only in `preferences.maxTasksPerDay`
and/or in the tasks' `dependencies` lists produce identical results — the
placement algorithm reads neither field. -/
theorem c8_ignored_knobs (p1 p2 : Preferences) (now cur : Int)
    (tasks1 tasks2 : List SchedTask) (evts : List SchedEvent)
    (hp : stripPreferences p1 = stripPreferences p2)
    (ht : tasks1.map stripSchedTask = tasks2.map stripSchedTask) :
    generateSchedule p1 now cur tasks1 evts = generateSchedule p2 now cur tasks2 evts := by
  rw [← generateSchedule_strip p1 now cur tasks1 evts,
    ← generateSchedule_strip p2 now cur tasks2 evts, hp, ht]

/-- Witness for C8 at concrete inputs differing in `maxTasksPerDay` and
`dependencies`. -/
theorem c8_ignored_knobs_witness :
    generateSchedule prefsDefault 0 mondayRef [wTaskDeps] [wEvent] =
      generateSchedule prefsMaxThree 0 mondayRef [wTask] [wEvent] :=
  c8_ignored_knobs prefsDefault prefsMaxThree 0 mondayRef [wTaskDeps] [wTask] [wEvent]
    (by decide) (by decide)

/-- C9: the scheduler works on a copy of `existingEvents` and only appends:
whenever it completes, its final working event list is exactly the caller's
input list (unchanged, as a prefix) followed by the placed tasks' blocked
intervals in placement order. -/
theorem c9_input_events_preserved (p : Preferences) (now cur : Int)
    (tasks : List SchedTask) (evts : List SchedEvent) (st : SchedState)
    (hrun : runScheduler p now cur tasks evts = some st) :
    st.allEvents = evts ++ st.scheduled.map toBlockedEvent := by
  obtain ⟨ds, us, e1, _, e3, _, _, _⟩ := runTasks_structural p now cur
    (sortWith cmpTask tasks) ⟨evts, [], []⟩ st 0 hrun
  simp only [List.nil_append] at e1
  rw [e3, e1]

/-- Witness for C9 at a concrete input. -/
theorem c9_input_events_preserved_witness :
    wState.allEvents = [wEvent] ++ wState.scheduled.map toBlockedEvent :=
  c9_input_events_preserved prefsDefault 0 mondayRef [wTask] [wEvent] wState (by decide)

/-- C10: every schedule entry's interval length is exactly its task's
`estimatedDuration` minutes (with the `|| 60` default captured by
`durationMinutes`): tasks are never split or truncated. -/
theorem c10_exact_duration (p : Preferences) (now cur : Int)
    (tasks : List SchedTask) (evts : List SchedEvent) (st : SchedState)
    (hrun : runScheduler p now cur tasks evts = some st) :
    ∀ s ∈ st.scheduled, ∃ t ∈ tasks,
      s.title = t.title ∧ s.description = t.description ∧ s.priority = t.priority ∧
      s.endTime - s.startTime = durationMinutes t * msPerMinute := by
  obtain ⟨ds, us, e1, _, _, _, e5, _⟩ := runTasks_structural p now cur
    (sortWith cmpTask tasks) ⟨evts, [], []⟩ st 0 hrun
  simp only [List.nil_append] at e1
  intro s hs
  obtain ⟨t, ht, h1, h2, h3, h4⟩ := e5 s (e1 ▸ hs)
  exact ⟨t, (mem_sortWith cmpTask tasks t).mp ht, h1, h2, h3, by omega⟩

/-- Witness for C10 at a concrete input. -/
theorem c10_exact_duration_witness :
    ∃ t ∈ ([wTask] : List SchedTask),
      wEntry.title = t.title ∧ wEntry.description = t.description ∧
      wEntry.priority = t.priority ∧
      wEntry.endTime - wEntry.startTime = durationMinutes t * msPerMinute :=
  c10_exact_duration prefsDefault 0 mondayRef [wTask] [wEvent] wState (by decide)
    wEntry (by decide)
